import Mathlib

/-!
Shallow embedding of the `coinset` package (coins.go) of the btcutil
repository, together with proofs about its selection algorithms and its
subset accumulator.

Modelling conventions:
* `btcutil.Amount` (an int64 count of base currency units) and `int64`
  value-ages are modelled as integers `Int`.  The int64 computation
  `target+minChange` inside `satisfiesTargetAmount` wraps to the int64
  range through `wrap64`, as the Go addition does; running sums of amounts
  are kept unbounded.
* The `make([]AmountCoin, 0, a.MaxInputs)` allocation at the top of
  `SelectMinIndex` panics at runtime when `a.MaxInputs` is negative; like
  the other runtime panics it is modelled as `none`, so the selection
  entry points return `Option (Except ...)`.
* A coin collection (the `Coins` / `AmountCoins` / `ValueAgeCoins`
  interfaces) is modelled as a `List VCoin`; indexed access `Coin(i)` is
  list indexing and `Len()` is the list length.  The in-place reordering
  performed through `Swap` by `sort.Sort` is modelled in state-passing
  style: the `...St` variants of the algorithms return the collection as it
  is left after the call, next to the result.
* `sort.Sort` guarantees only that the result is a permutation ordered by
  the comparator; we model it with an executable insertion sort driven by
  the same comparator (ties may be resolved differently, exactly as the unstable
  sort of Go leaves them unspecified).
* Go runtime panics (out-of-range slice indexing) are modelled as `none`
  of an `Option` result.
-/

/-- Error outcome of the coinset package: the only error value declared in
coins.go is `ErrCoinsNoSelectionAvailable`. -/
inductive CoinErr where
  | noSelectionAvailable
deriving DecidableEq

/-- A coin as seen through the `ValueAgeCoin` capability of coins.go: an
amount and a value-age. -/
structure VCoin where
  amount : Int
  valueAge : Int
deriving DecidableEq

/-- The `Args` structure of coins.go: `MaxInputs` (a Go `int`, hence
possibly non-positive) and `MinChangeAmount`. -/
structure Args where
  MaxInputs : Int
  MinChangeAmount : Int

/-- Twos-complement wraparound to the int64 range: the representative of
an integer modulo 2^64 that lies in [-2^63, 2^63), i.e. the value a Go
int64 addition produces.  9223372036854775808 = 2^63 and
18446744073709551616 = 2^64. -/
def wrap64 (n : Int) : Int :=
  (n + 9223372036854775808) % 18446744073709551616 - 9223372036854775808

/-- Direct translation of `satisfiesTargetAmount` from coins.go:
`total == target || total >= target+minChange`, where the addition
`target+minChange` is performed on int64 and therefore wraps. -/
def satisfiesTargetAmount (target minChange total : Int) : Bool :=
  total == target || decide (wrap64 (target + minChange) ≤ total)

/-- Sum of the amounts of a list of coins. -/
def amtSum (l : List VCoin) : Int :=
  (l.map VCoin.amount).sum

/-- Sum of the value-ages of a list of coins. -/
def ageSum (l : List VCoin) : Int :=
  (l.map VCoin.valueAge).sum

/-- Sum of the amounts of the first `k` coins of a collection: the value of
the running accumulator `total` of `SelectMinIndex` after `k` coins were
scanned. -/
def amtSumTake (coins : List VCoin) (k : Nat) : Int :=
  amtSum (coins.take k)

/-- The scanning loop of `Args.SelectMinIndex` from coins.go.  The list
argument is the portion of the collection not yet scanned, `i` is the
current position and `total` the running amount.  Each iteration runs only
while `i < numCoins && i < a.MaxInputs` (the list pattern encodes
`i < numCoins`); it appends the coin, accumulates its amount and, if the
target predicate now holds, returns the indices `[0, ..., i]`
(`idxs[i] = i` in the source).  Exhausting the loop yields
`ErrCoinsNoSelectionAvailable`. -/
def scanSel (a : Args) (target : Int) : List VCoin → Nat → Int → Except CoinErr (List Nat)
  | [], _, _ => .error .noSelectionAvailable
  | c :: rest, i, total =>
    if (i : Int) < a.MaxInputs then
      if satisfiesTargetAmount target a.MinChangeAmount (total + c.amount) then
        .ok (List.range (i + 1))
      else
        scanSel a target rest (i + 1) (total + c.amount)
    else
      .error .noSelectionAvailable

/-- `Args.SelectMinIndex` from coins.go.  Its first statement is
`sel := make([]AmountCoin, 0, a.MaxInputs)`: for a negative `a.MaxInputs`
this allocation panics at runtime (negative capacity), modelled as `none`,
before any scan; otherwise the scan runs from index 0 with an empty
running total. -/
def selectMinIndex (a : Args) (target : Int) (coins : List VCoin) :
    Option (Except CoinErr (List Nat)) :=
  if a.MaxInputs < 0 then none
  else some (scanSel a target coins 0 0)

/-- Reference formulation of `SelectMinIndex` following the specification
text (§4.5): scan at most `min(collection length, max_inputs)` positions;
return `[0, ..., i]` for the smallest position `i` whose accumulated total
satisfies the target predicate, and `NoSelectionAvailable` when no scanned
position satisfies it.  This definition follows the words of the spec and
is compared with `selectMinIndex`, which is translated from the source. -/
def selectMinIndexSpec (a : Args) (target : Int) (coins : List VCoin) : Except CoinErr (List Nat) :=
  match (List.range (min coins.length a.MaxInputs.toNat)).find?
      (fun i => satisfiesTargetAmount target a.MinChangeAmount (amtSumTake coins (i + 1))) with
  | some i => .ok (List.range (i + 1))
  | none => .error .noSelectionAvailable

/-- Ordered insertion used by the model of `sort.Sort`: `le x y` means `x`
may be placed before `y`. -/
def insertSorted (le : VCoin → VCoin → Bool) (x : VCoin) : List VCoin → List VCoin
  | [] => [x]
  | y :: ys => if le x y then x :: y :: ys else y :: insertSorted le x ys

/-- Insertion sort model of `sort.Sort`: produces a permutation of the
input that is ordered by `le`. -/
def sortByLe (le : VCoin → VCoin → Bool) : List VCoin → List VCoin
  | [] => []
  | x :: xs => insertSorted le x (sortByLe le xs)

/-- Descending-amount order: coin `x` may precede coin `y` exactly when
`sort.Reverse(byAmount{...}).Less` does not order `y` strictly before `x`,
i.e. when `y.amount ≤ x.amount`. -/
def byAmountDesc (x y : VCoin) : Bool :=
  decide (y.amount ≤ x.amount)

/-- Descending value-age order, from `sort.Reverse(byValueAge{...})`. -/
def byValueAgeDesc (x y : VCoin) : Bool :=
  decide (y.valueAge ≤ x.valueAge)

/-- Ascending value-age order, from `byValueAge.Less`. -/
def byValueAgeAsc (x y : VCoin) : Bool :=
  decide (x.valueAge ≤ y.valueAge)

/-- `Args.MinNumberSelect` from coins.go: sort the collection in
non-increasing amount order, then run `SelectMinIndex` on it (whose
allocation panic for a negative budget propagates as `none`). -/
def minNumberSelect (a : Args) (target : Int) (coins : List VCoin) :
    Option (Except CoinErr (List Nat)) :=
  selectMinIndex a target (sortByLe byAmountDesc coins)

/-- The fewest-inputs selection as invoked inside the model of §4.8: every
budget it is called with there is non-negative (the positive `numLow` of
the supplement ladder, or a `MaxInputs ≥ 0` already checked at the
`minPrioritySelect` entry), so the allocation panic cannot fire and the
pure sorted scan is the faithful behavior. -/
def minNumberSelectCore (a : Args) (target : Int) (coins : List VCoin) :
    Except CoinErr (List Nat) :=
  scanSel a target (sortByLe byAmountDesc coins) 0 0

/-- `Args.MaxValueAgeSelect` from coins.go: sort the collection in
non-increasing value-age order, then run `SelectMinIndex` on it (whose
allocation panic for a negative budget propagates as `none`). -/
def maxValueAgeSelect (a : Args) (target : Int) (coins : List VCoin) :
    Option (Except CoinErr (List Nat)) :=
  selectMinIndex a target (sortByLe byValueAgeDesc coins)

/-- State-passing form of `SelectMinIndex`: the source only reads the
collection (`Len`, `AmountCoin`) and never calls `Swap`, so the collection
handed back is the argument itself. -/
def selectMinIndexSt (a : Args) (target : Int) (coins : List VCoin) :
    Option (Except CoinErr (List Nat)) × List VCoin :=
  (selectMinIndex a target coins, coins)

/-- State-passing form of `MinNumberSelect`: the call leaves the collection
of the caller reordered non-increasingly by amount. -/
def minNumberSelectSt (a : Args) (target : Int) (coins : List VCoin) :
    Option (Except CoinErr (List Nat)) × List VCoin :=
  let sortedCoins := sortByLe byAmountDesc coins
  (selectMinIndex a target sortedCoins, sortedCoins)

/-- State-passing form of `MaxValueAgeSelect`: the call leaves the collection
of the caller reordered non-increasingly by value-age. -/
def maxValueAgeSelectSt (a : Args) (target : Int) (coins : List VCoin) :
    Option (Except CoinErr (List Nat)) × List VCoin :=
  let sortedCoins := sortByLe byValueAgeDesc coins
  (selectMinIndex a target sortedCoins, sortedCoins)

/-- The `subset` structure of coins.go: a source collection (the
`ValueAgeCoins` interface, modelled as indexed access `Nat → VCoin`), the
ordered index list, and the two cached totals. -/
structure Subset where
  set : Nat → VCoin
  idxs : List Nat
  totalValue : Int
  totalValueAge : Int

/-- Sum of `Amount()` over a list of indices into `set`. -/
def idxAmtSum (set : Nat → VCoin) (idxs : List Nat) : Int :=
  (idxs.map fun i => (set i).amount).sum

/-- Sum of `ValueAge()` over a list of indices into `set`. -/
def idxAgeSum (set : Nat → VCoin) (idxs : List Nat) : Int :=
  (idxs.map fun i => (set i).valueAge).sum

/-- `newSubset` from coins.go: store the collection and indices and
accumulate both totals over the initial indices. -/
def newSubset (coins : Nat → VCoin) (idxs : List Nat) : Subset :=
  { set := coins
    idxs := idxs
    totalValue := idxAmtSum coins idxs
    totalValueAge := idxAgeSum coins idxs }

/-- `subset.pushBack` from coins.go: append the index and add the amount
and value-age of the coin to the cached totals. -/
def Subset.pushBack (s : Subset) (i : Nat) : Subset :=
  { s with
    idxs := s.idxs ++ [i]
    totalValue := s.totalValue + (s.set i).amount
    totalValueAge := s.totalValueAge + (s.set i).valueAge }

/-- `subset.subTotals` from coins.go: subtract the amount and value-age of
a removed coin from the cached totals. -/
def Subset.subTotals (s : Subset) (c : VCoin) : Subset :=
  { s with
    totalValue := s.totalValue - c.amount
    totalValueAge := s.totalValueAge - c.valueAge }

/-- `subset.popBack` from coins.go reads `s.idxs[len(s.idxs)-1]`; on an
empty index list that indexing is out of range and the Go runtime panics,
modelled here as `none`.  Otherwise the last index is removed and the
contribution of the coin subtracted via `subTotals`. -/
def Subset.popBack (s : Subset) : Option (VCoin × Subset) :=
  match s.idxs.getLast? with
  | none => none
  | some i =>
    let back := s.set i
    some (back, Subset.subTotals { s with idxs := s.idxs.dropLast } back)

/-- `subset.popFront` from coins.go reads `s.idxs[0]`; on an empty index
list that indexing is out of range and the Go runtime panics, modelled here
as `none`.  Otherwise the first index is removed and the
contribution of the coin subtracted via `subTotals`. -/
def Subset.popFront (s : Subset) : Option (VCoin × Subset) :=
  match s.idxs with
  | [] => none
  | i :: rest =>
    let front := s.set i
    some (front, Subset.subTotals { s with idxs := rest } front)

/-- One operation on a subset accumulator. -/
inductive SubsetOp where
  | pushBackOp : Nat → SubsetOp
  | popBackOp : SubsetOp
  | popFrontOp : SubsetOp

/-- Run a sequence of subset operations; `none` when some pop hits an empty
subset (a Go runtime panic). -/
def runOps : Subset → List SubsetOp → Option Subset
  | s, [] => some s
  | s, .pushBackOp i :: ops => runOps (s.pushBack i) ops
  | s, .popBackOp :: ops =>
    match s.popBack with
    | none => none
    | some (_, s') => runOps s' ops
  | s, .popFrontOp :: ops =>
    match s.popFront with
    | none => none
    | some (_, s') => runOps s' ops

/-- The cached-totals invariant of the subset accumulator: each cached
total equals the corresponding sum over the current indices. -/
def SubsetInv (s : Subset) : Prop :=
  s.totalValue = idxAmtSum s.set s.idxs ∧ s.totalValueAge = idxAgeSum s.set s.idxs

/-- Modelled from the spec: the priority-lowering loop of
`MinPrioritySelect` (§4.8 step 2, success case).  Starting from the
selected high-priority coins `acc`, low-priority coins are added from
position 0 upward while `max_inputs` permits; after a tentative addition,
if the running average value-age (integer division truncating toward zero,
as the Go `/` on int64) falls below the threshold, the addition is undone and
the loop stops.  The corresponding region of coins.go does not compile
(unbound `s`, methods on undefined `CoinSet`), so the wording of the spec is
followed. -/
def extendLow (maxInputs minAvg : Int) : List VCoin → List VCoin → List VCoin
  | [], acc => acc
  | c :: rest, acc =>
    if (acc.length : Int) < maxInputs then
      if Int.tdiv (ageSum (acc ++ [c])) ((acc ++ [c]).length : Int) < minAvg then acc
      else extendLow maxInputs minAvg rest (acc ++ [c])
    else acc

/-- Modelled from the spec: the candidate counts `numLow` of §4.8 step 2
(failure case), `1 ≤ numLow ≤ cutoff` with the combined size
`windowLen + numLow` within the remaining `max_inputs` budget. -/
def numLowCandidates (cutoff : Nat) (maxInputs : Int) (windowLen : Nat) : List Nat :=
  ((List.range cutoff).map (· + 1)).filter fun n =>
    decide ((windowLen : Int) + (n : Int) ≤ maxInputs)

/-- Modelled from the spec: the supplement ladder of `MinPrioritySelect`
(§4.8 step 2, failure case).  For each candidate `numLow` in order, the
residual target and the derived minimum average value-age for the
low-priority portion are computed (`newMinAvgValueAge` of coins.go, with
the truncating int64 division of Go) and the algorithm recurses (through
`recur`) on the low-priority coins with an input budget of `numLow`; the
first success is appended to the high-priority window and returned. -/
def tryNumLowList (recur : Args → Int → Int → List VCoin → Except CoinErr (List VCoin))
    (a : Args) (minAvg target : Int) (low window : List VCoin) :
    List Nat → Option (List VCoin)
  | [] => none
  | numLow :: rest =>
    match recur { MaxInputs := (numLow : Int), MinChangeAmount := a.MinChangeAmount }
        (Int.tdiv (minAvg * ((window.length : Int) + (numLow : Int)) - ageSum window) (numLow : Int))
        (target - amtSum window) low with
    | .ok lowSel => some (window ++ lowSel)
    | .error _ => tryNumLowList recur a minAvg target low window rest

/-- Modelled from the spec: the growing-window loop of `MinPrioritySelect`
(§4.8 step 2).  For each window `[cutoff, i]` of the ascending-value-age
order, fewest-inputs selection (§4.6) is attempted on the window alone; on
success the selected coins are extended with low-priority coins via
`extendLow` and returned, on failure the supplement ladder runs, and only
if the ladder also fails does the window grow. -/
def tryWindowsList (recur : Args → Int → Int → List VCoin → Except CoinErr (List VCoin))
    (a : Args) (minAvg target : Int) (sortedCoins : List VCoin) (cutoff : Nat)
    (low : List VCoin) : List Nat → Except CoinErr (List VCoin)
  | [] => .error .noSelectionAvailable
  | i :: rest =>
    let window := (sortedCoins.take (i + 1)).drop cutoff
    match minNumberSelectCore a target window with
    | .ok sel =>
      let chosen := (sortByLe byAmountDesc window).take sel.length
      .ok (extendLow a.MaxInputs minAvg low chosen)
    | .error _ =>
      match tryNumLowList recur a minAvg target low window
          (numLowCandidates cutoff a.MaxInputs window.length) with
      | some r => .ok r
      | none => tryWindowsList recur a minAvg target sortedCoins cutoff low rest

/-- Modelled from the spec: one unfolding of `MinPrioritySelect` (§4.8).
The collection is sorted ascending by value-age (the `sort.Sort(byValueAge{...})`
line of coins.go, which does compile); `cutoff` is the smallest index at which
the value-age of the coin reaches the threshold, failing with `NoSelectionAvailable`
when none does (the cutoff scan of coins.go, which also compiles); the rest
of the source body does not compile and the windows-and-supplement
description of §4.8 is followed through `tryWindowsList`.  Recursive calls go
through `recur`. -/
def minPrioStep (recur : Args → Int → Int → List VCoin → Except CoinErr (List VCoin))
    (a : Args) (minAvg target : Int) (coins : List VCoin) : Except CoinErr (List VCoin) :=
  let sortedCoins := sortByLe byValueAgeAsc coins
  match sortedCoins.findIdx? (fun c => decide (minAvg ≤ c.valueAge)) with
  | none => .error .noSelectionAvailable
  | some cutoff =>
    tryWindowsList recur a minAvg target sortedCoins cutoff (sortedCoins.take cutoff)
      (List.range' cutoff (sortedCoins.length - cutoff))

/-- Fuel-indexed recursion for `MinPrioritySelect`: the recursion of §4.8
is on the strictly shorter low-priority portion, so a fuel of one more than
the collection length always suffices. -/
def minPrioFuel : Nat → Args → Int → Int → List VCoin → Except CoinErr (List VCoin)
  | 0 => fun _ _ _ _ => .error .noSelectionAvailable
  | fuel + 1 => minPrioStep (minPrioFuel fuel)

/-- Modelled from the spec: `Args.MinPrioritySelect` (§4.8), returning the
selected coins.  The source body of `MinPrioritySelect` past the cutoff
scan does not compile (it slices interface values and uses the unbound
names `targetValue`, `newTargetVAlue` and `s`), so §4.8 is followed.  When
`a.MaxInputs` is negative and a cutoff exists, the first window attempt
calls `MinNumberSelect`, whose `make([]AmountCoin, 0, a.MaxInputs)`
allocation panics — modelled as `none`; when no cutoff exists the error
return of the (compiling) cutoff scan precedes any allocation. -/
def minPrioritySelect (a : Args) (minAvg target : Int) (coins : List VCoin) :
    Option (Except CoinErr (List VCoin)) :=
  if a.MaxInputs < 0 then
    match (sortByLe byValueAgeAsc coins).findIdx? (fun c => decide (minAvg ≤ c.valueAge)) with
    | none => some (.error .noSelectionAvailable)
    | some _ => none
  else some (minPrioFuel (coins.length + 1) a minAvg target coins)

/-- State-passing form of `MinPrioritySelect`: its first action is the
(compiling) line `sort.Sort(byValueAge{coins})` of coins.go, which leaves
the collection of the caller reordered ascending by value-age in place;
the window handling afterwards is spec-modelled functionally. -/
def minPrioritySelectSt (a : Args) (minAvg target : Int) (coins : List VCoin) :
    Option (Except CoinErr (List VCoin)) × List VCoin :=
  (minPrioritySelect a minAvg target coins, sortByLe byValueAgeAsc coins)

/-! Helper lemmas. -/

theorem idxAmtSum_append (set : Nat → VCoin) (l1 l2 : List Nat) :
    idxAmtSum set (l1 ++ l2) = idxAmtSum set l1 + idxAmtSum set l2 := by
  simp [idxAmtSum]

theorem idxAgeSum_append (set : Nat → VCoin) (l1 l2 : List Nat) :
    idxAgeSum set (l1 ++ l2) = idxAgeSum set l1 + idxAgeSum set l2 := by
  simp [idxAgeSum]

theorem subsetInv_newSubset (coins : Nat → VCoin) (idxs : List Nat) :
    SubsetInv (newSubset coins idxs) :=
  ⟨rfl, rfl⟩

theorem subsetInv_pushBack {s : Subset} (h : SubsetInv s) (i : Nat) :
    SubsetInv (s.pushBack i) := by
  obtain ⟨h1, h2⟩ := h
  constructor
  · simp [Subset.pushBack, idxAmtSum_append, h1, idxAmtSum]
  · simp [Subset.pushBack, idxAgeSum_append, h2, idxAgeSum]

theorem subsetInv_popBack {s : Subset} (h : SubsetInv s) {c : VCoin} {s' : Subset}
    (hp : s.popBack = some (c, s')) : SubsetInv s' := by
  obtain ⟨h1, h2⟩ := h
  unfold Subset.popBack at hp
  cases hl : s.idxs.getLast? with
  | none => rw [hl] at hp; cases hp
  | some i =>
    rw [hl] at hp
    have hne : s.idxs ≠ [] := by
      intro h0
      rw [h0] at hl
      cases hl
    have hlast : s.idxs.getLast hne = i := by
      have := List.getLast?_eq_getLast s.idxs hne
      rw [hl] at this
      exact (Option.some.injEq _ _).mp this.symm
    have hsplit : s.idxs.dropLast ++ [i] = s.idxs := by
      rw [← hlast]
      exact List.dropLast_append_getLast hne
    simp only [Option.some.injEq, Prod.mk.injEq] at hp
    obtain ⟨hc, hs⟩ := hp
    subst hs
    constructor
    · have hsum : idxAmtSum s.set s.idxs = idxAmtSum s.set s.idxs.dropLast + (s.set i).amount := by
        conv_lhs => rw [← hsplit]
        rw [idxAmtSum_append]
        simp [idxAmtSum]
      simp only [Subset.subTotals]
      rw [h1, hsum]
      ring
    · have hsum : idxAgeSum s.set s.idxs = idxAgeSum s.set s.idxs.dropLast + (s.set i).valueAge := by
        conv_lhs => rw [← hsplit]
        rw [idxAgeSum_append]
        simp [idxAgeSum]
      simp only [Subset.subTotals]
      rw [h2, hsum]
      ring

theorem subsetInv_popFront {s : Subset} (h : SubsetInv s) {c : VCoin} {s' : Subset}
    (hp : s.popFront = some (c, s')) : SubsetInv s' := by
  obtain ⟨h1, h2⟩ := h
  unfold Subset.popFront at hp
  cases hl : s.idxs with
  | nil => rw [hl] at hp; cases hp
  | cons i rest =>
    rw [hl] at hp
    simp only [Option.some.injEq, Prod.mk.injEq] at hp
    obtain ⟨hc, hs⟩ := hp
    subst hs
    constructor
    · rw [Subset.subTotals]
      simp only [h1, hl]
      simp [idxAmtSum, hc]
    · rw [Subset.subTotals]
      simp only [h2, hl]
      simp [idxAgeSum, hc]

theorem subsetInv_runOps {ops : List SubsetOp} :
    ∀ {s s' : Subset}, SubsetInv s → runOps s ops = some s' → SubsetInv s' := by
  induction ops with
  | nil =>
    intro s s' h hr
    simp only [runOps, Option.some.injEq] at hr
    exact hr ▸ h
  | cons op ops ih =>
    intro s s' h hr
    cases op with
    | pushBackOp i =>
      exact ih (subsetInv_pushBack h i) hr
    | popBackOp =>
      simp only [runOps] at hr
      cases hp : s.popBack with
      | none => rw [hp] at hr; cases hr
      | some cs =>
        obtain ⟨c, s2⟩ := cs
        rw [hp] at hr
        exact ih (subsetInv_popBack h hp) hr
    | popFrontOp =>
      simp only [runOps] at hr
      cases hp : s.popFront with
      | none => rw [hp] at hr; cases hr
      | some cs =>
        obtain ⟨c, s2⟩ := cs
        rw [hp] at hr
        exact ih (subsetInv_popFront h hp) hr

/-! Claim theorems (first group). -/

/-- C2 counterexample: at `target = min_change = 2^62 = 4611686018427387904`
and `total = 0` — all non-negative int64 values, inside the quantified
domain of the claim — the source computes `target+minChange` on int64,
which wraps to `-2^63`, so `total >= target+minChange` holds and the
function returns true, while the claimed right-hand side
(`total = target` or `total - target ≥ min_change`) is false. -/
theorem satisfiesTargetAmount_overflow :
    (0 : Int) ≤ 4611686018427387904 ∧
    satisfiesTargetAmount 4611686018427387904 4611686018427387904 0 = true ∧
      ¬((0 : Int) = 4611686018427387904 ∨
        (4611686018427387904 : Int) ≤ 0 - 4611686018427387904) := by
  refine ⟨by decide, ?_, by decide⟩
  decide

/-- C2 (amended): for all non-negative integers `target`, `min_change` and
`total` such that `target + min_change` does not overflow int64
(`target + min_change < 2^63 = 9223372036854775808`),
`satisfiesTargetAmount target min_change total` returns true if and only if
`total = target` or `total - target ≥ min_change`. -/
theorem satisfiesTargetAmount_iff (target minChange total : Int)
    (ht : 0 ≤ target) (hm : 0 ≤ minChange) (hl : 0 ≤ total)
    (hno : target + minChange < 9223372036854775808) :
    satisfiesTargetAmount target minChange total = true ↔
      total = target ∨ minChange ≤ total - target := by
  have hw : wrap64 (target + minChange) = target + minChange := by
    unfold wrap64
    omega
  simp only [satisfiesTargetAmount, hw, Bool.or_eq_true, beq_iff_eq, decide_eq_true_eq]
  omega

/-- Witness for C2 at `target = 100`, `min_change = 50`, `total = 200`. -/
theorem satisfiesTargetAmount_iff_witness :
    (0 : Int) ≤ 100 ∧ (0 : Int) ≤ 50 ∧ (0 : Int) ≤ 200 ∧
      (100 + 50 : Int) < 9223372036854775808 ∧
      (satisfiesTargetAmount 100 50 200 = true ↔
        (200 : Int) = 100 ∨ (50 : Int) ≤ 200 - 100) :=
  ⟨by decide, by decide, by decide, by decide,
    satisfiesTargetAmount_iff 100 50 200 (by decide) (by decide) (by decide) (by decide)⟩

/-- C3: starting from `newSubset` and running any finite sequence of
`pushBack`, `popBack` and `popFront` operations in which no pop hits an
empty subset (the run returns `some`), the cached `totalValue` equals the
sum of `amount` over the current indices of the subset and the cached
`totalValueAge` equals the sum of `valueAge` over them.  Constancy of the amount and
value-age of each coin during the sequence is inherent in the model:
the source collection is a fixed function. -/
theorem subset_totals_invariant (coins : Nat → VCoin) (idxs : List Nat)
    (ops : List SubsetOp) (s : Subset)
    (h : runOps (newSubset coins idxs) ops = some s) : SubsetInv s :=
  subsetInv_runOps (subsetInv_newSubset coins idxs) h

/-- Witness for C3: two initial indices, a push and a front pop over a
constant collection of coins of amount 7 and value-age 2. -/
theorem subset_totals_invariant_witness :
    SubsetInv { set := fun _ => ⟨7, 2⟩, idxs := [1, 2], totalValue := 14, totalValueAge := 4 } :=
  subset_totals_invariant (fun _ => ⟨7, 2⟩) [0, 1] [.pushBackOp 2, .popFrontOp] _ rfl

/-- C4: on a subset whose index list is empty, `popBack` and `popFront` do
not produce an `EmptySubset` error value — no such error exists in the
source, whose only error is `ErrCoinsNoSelectionAvailable` — instead the
source indexes `s.idxs[len(s.idxs)-1]` (resp. `s.idxs[0]`) out of range,
a Go runtime panic, modelled here as `none`: no coin and no updated totals
are produced. -/
theorem popBack_popFront_empty (coins : Nat → VCoin) :
    (newSubset coins []).popBack = none ∧ (newSubset coins []).popFront = none :=
  ⟨rfl, rfl⟩

/-- C5: Scenario A.  For coins with amounts `[500, 100, 400]`, target 700,
`max_inputs = 3` and `min_change = 0`, fewest-inputs selection leaves the
collection reordered descending to `[500, 400, 100]` and returns the
two-index selection `[0, 1]` into the sorted order, whose total amount is
`500 + 400 = 900`. -/
theorem minNumberSelect_scenarioA :
    minNumberSelectSt ⟨3, 0⟩ 700 [⟨500, 0⟩, ⟨100, 0⟩, ⟨400, 0⟩] =
      (some (.ok [0, 1]), [⟨500, 0⟩, ⟨400, 0⟩, ⟨100, 0⟩]) ∧
    amtSum ((sortByLe byAmountDesc [⟨500, 0⟩, ⟨100, 0⟩, ⟨400, 0⟩]).take 2) = 900 :=
  ⟨rfl, rfl⟩

/-! Sorting lemmas: the insertion-sort model of `sort.Sort` returns a
permutation of its input ordered by the comparator. -/

theorem insertSorted_perm (le : VCoin → VCoin → Bool) (x : VCoin) :
    ∀ (l : List VCoin), (insertSorted le x l).Perm (x :: l)
  | [] => List.Perm.refl _
  | y :: ys => by
    unfold insertSorted
    by_cases h : le x y
    · rw [if_pos h]
    · rw [if_neg h]
      exact ((insertSorted_perm le x ys).cons y).trans (List.Perm.swap x y ys)

theorem sortByLe_perm (le : VCoin → VCoin → Bool) :
    ∀ (l : List VCoin), (sortByLe le l).Perm l
  | [] => List.Perm.refl _
  | x :: xs => (insertSorted_perm le x (sortByLe le xs)).trans ((sortByLe_perm le xs).cons x)

theorem pairwise_insertSorted (le : VCoin → VCoin → Bool)
    (htot : ∀ x y, le x y = true ∨ le y x = true)
    (htrans : ∀ x y z, le x y = true → le y z = true → le x z = true)
    (x : VCoin) : ∀ {l : List VCoin},
    List.Pairwise (fun u v => le u v = true) l →
    List.Pairwise (fun u v => le u v = true) (insertSorted le x l)
  | [], _ => by simp [insertSorted]
  | y :: ys, h => by
    rw [List.pairwise_cons] at h
    obtain ⟨hy, hys⟩ := h
    unfold insertSorted
    by_cases hxy : le x y
    · rw [if_pos hxy]
      refine List.pairwise_cons.mpr ⟨?_, List.pairwise_cons.mpr ⟨hy, hys⟩⟩
      intro z hz
      rcases List.mem_cons.mp hz with rfl | hz
      · exact hxy
      · exact htrans x y z hxy (hy z hz)
    · rw [if_neg hxy]
      have hyx : le y x = true := (htot x y).resolve_left hxy
      refine List.pairwise_cons.mpr ⟨?_, pairwise_insertSorted le htot htrans x hys⟩
      intro z hz
      rcases List.mem_cons.mp ((insertSorted_perm le x ys).mem_iff.mp hz) with rfl | hz
      · exact hyx
      · exact hy z hz

theorem pairwise_sortByLe (le : VCoin → VCoin → Bool)
    (htot : ∀ x y, le x y = true ∨ le y x = true)
    (htrans : ∀ x y z, le x y = true → le y z = true → le x z = true) :
    ∀ (l : List VCoin), List.Pairwise (fun u v => le u v = true) (sortByLe le l)
  | [] => List.Pairwise.nil
  | x :: xs => pairwise_insertSorted le htot htrans x (pairwise_sortByLe le htot htrans xs)

/-- C6: in the state-passing embedding, `MinNumberSelect` leaves the
collection of the caller a permutation of the original reordered so amounts are
non-increasing, and `MaxValueAgeSelect` likewise with value-ages
non-increasing; the final conjunct exhibits a collection on which the
post-call order differs from the original order, so the original
positional order is not restored. -/
theorem sorting_selectors_reorder_in_place (a : Args) (target : Int) (coins : List VCoin) :
    ((minNumberSelectSt a target coins).2.Perm coins ∧
      List.Pairwise (fun u v => v.amount ≤ u.amount) (minNumberSelectSt a target coins).2) ∧
    ((maxValueAgeSelectSt a target coins).2.Perm coins ∧
      List.Pairwise (fun u v => v.valueAge ≤ u.valueAge) (maxValueAgeSelectSt a target coins).2) ∧
    (minNumberSelectSt ⟨3, 0⟩ 700 [⟨500, 0⟩, ⟨100, 0⟩, ⟨400, 0⟩]).2 ≠
      [⟨500, 0⟩, ⟨100, 0⟩, ⟨400, 0⟩] ∧
    (maxValueAgeSelectSt ⟨3, 0⟩ 700 [⟨500, 1⟩, ⟨100, 9⟩, ⟨400, 4⟩]).2 ≠
      [⟨500, 1⟩, ⟨100, 9⟩, ⟨400, 4⟩] := by
  refine ⟨⟨sortByLe_perm _ _, ?_⟩, ⟨sortByLe_perm _ _, ?_⟩, by decide, by decide⟩
  · have h := pairwise_sortByLe byAmountDesc
      (fun x y => by
        simp only [byAmountDesc, decide_eq_true_eq]
        omega)
      (fun x y z => by
        simp only [byAmountDesc, decide_eq_true_eq]
        omega)
      coins
    exact h.imp fun hb => by simpa [byAmountDesc] using hb
  · have h := pairwise_sortByLe byValueAgeDesc
      (fun x y => by
        simp only [byValueAgeDesc, decide_eq_true_eq]
        omega)
      (fun x y z => by
        simp only [byValueAgeDesc, decide_eq_true_eq]
        omega)
      coins
    exact h.imp fun hb => by simpa [byValueAgeDesc] using hb

/-- C9 counterexample: the claim that only the sorting wrappers
`MinNumberSelect` and `MaxValueAgeSelect` reorder the collection is false:
`MinPrioritySelect` also reorders the collection of the caller — its first
(compiling) line sorts it ascending by value-age in place — shown here on
a concrete collection whose post-call order differs from its original
order. -/
theorem minPrioritySelect_reorders :
    (minPrioritySelectSt ⟨2, 0⟩ 3 150 [⟨100, 5⟩, ⟨100, 1⟩]).2 = [⟨100, 1⟩, ⟨100, 5⟩] ∧
      [⟨100, 1⟩, ⟨100, 5⟩] ≠ ([⟨100, 5⟩, ⟨100, 1⟩] : List VCoin) :=
  ⟨rfl, by decide⟩

/-- C9 (amended): `SelectMinIndex` only reads the collection (`Len` and
`AmountCoin`) and never calls `Swap` — in the state-passing embedding the
collection handed back after the call, whether the result is a selection,
the `NoSelectionAvailable` error or the allocation panic, is exactly the
collection passed in — but the sorting wrappers are not the only
reordering algorithms: `MinPrioritySelect` also leaves the collection of
the caller reordered, ascending by value-age, as a permutation of the
input, and on a concrete collection that order differs from the original
one. -/
theorem selectMinIndex_preserves_minPriority_reorders
    (a : Args) (minAvg target : Int) (coins : List VCoin) :
    (selectMinIndexSt a target coins).2 = coins ∧
    ((minPrioritySelectSt a minAvg target coins).2.Perm coins ∧
      List.Pairwise (fun u v => u.valueAge ≤ v.valueAge)
        (minPrioritySelectSt a minAvg target coins).2) ∧
    (minPrioritySelectSt ⟨2, 0⟩ 3 150 [⟨100, 5⟩, ⟨100, 1⟩]).2 ≠ [⟨100, 5⟩, ⟨100, 1⟩] := by
  refine ⟨rfl, ⟨sortByLe_perm _ _, ?_⟩, by decide⟩
  have h := pairwise_sortByLe byValueAgeAsc
    (fun x y => by
      simp only [byValueAgeAsc, decide_eq_true_eq]
      omega)
    (fun x y z => by
      simp only [byValueAgeAsc, decide_eq_true_eq]
      omega)
    coins
  exact h.imp fun hb => by simpa [byValueAgeAsc] using hb

/-! Characterization lemmas for the greedy scan. -/

theorem scanSel_ok (a : Args) (t : Int) :
    ∀ (rest : List VCoin) (i : Nat) (total : Int) (idxs : List Nat),
      scanSel a t rest i total = .ok idxs →
      ∃ k, i ≤ k ∧ idxs = List.range (k + 1) ∧ (k : Int) < a.MaxInputs
  | [], i, total, idxs => by
    intro h
    cases h
  | c :: rest, i, total, idxs => by
    intro h
    unfold scanSel at h
    by_cases h1 : (i : Int) < a.MaxInputs
    · rw [if_pos h1] at h
      by_cases h2 : satisfiesTargetAmount t a.MinChangeAmount (total + c.amount)
      · rw [if_pos h2] at h
        cases h
        exact ⟨i, le_refl i, rfl, h1⟩
      · rw [if_neg h2] at h
        obtain ⟨k, hk, hidxs, hlt⟩ := scanSel_ok a t rest (i + 1) (total + c.amount) idxs h
        exact ⟨k, by omega, hidxs, hlt⟩
    · rw [if_neg h1] at h
      cases h

theorem scanSel_ok_length {a : Args} {t : Int} {coins : List VCoin} {idxs : List Nat}
    (h : scanSel a t coins 0 0 = .ok idxs) : (idxs.length : Int) ≤ a.MaxInputs := by
  obtain ⟨k, _, rfl, hlt⟩ := scanSel_ok a t coins 0 0 idxs h
  rw [List.length_range]
  push_cast
  omega

theorem minNumberSelectCore_ok_length {a : Args} {t : Int} {coins : List VCoin}
    {idxs : List Nat} (h : minNumberSelectCore a t coins = .ok idxs) :
    (idxs.length : Int) ≤ a.MaxInputs :=
  scanSel_ok_length h

theorem selectMinIndex_ok_length {a : Args} {t : Int} {coins : List VCoin} {idxs : List Nat}
    (h : selectMinIndex a t coins = some (.ok idxs)) : (idxs.length : Int) ≤ a.MaxInputs := by
  unfold selectMinIndex at h
  by_cases hm : a.MaxInputs < 0
  · rw [if_pos hm] at h
    cases h
  · rw [if_neg hm] at h
    simp only [Option.some.injEq] at h
    exact scanSel_ok_length h

theorem amtSumTake_succ (coins : List VCoin) (i : Nat) (h : i < coins.length) :
    amtSumTake coins (i + 1) = amtSumTake coins i + coins[i].amount := by
  unfold amtSumTake amtSum
  rw [List.take_succ, List.getElem?_eq_getElem h, List.map_append, List.sum_append]
  simp

theorem scanSel_eq_find (a : Args) (t : Int) (coins : List VCoin) :
    ∀ (rest : List VCoin) (i : Nat), rest = coins.drop i →
      scanSel a t rest i (amtSumTake coins i) =
        match (List.range' i (min coins.length a.MaxInputs.toNat - i)).find?
            (fun k => satisfiesTargetAmount t a.MinChangeAmount (amtSumTake coins (k + 1))) with
        | some k => .ok (List.range (k + 1))
        | none => .error .noSelectionAvailable
  | [], i, hrest => by
    have hlen : coins.length ≤ i := List.drop_eq_nil_iff.mp hrest.symm
    have h0 : min coins.length a.MaxInputs.toNat - i = 0 := by omega
    rw [h0]
    rfl
  | c :: rest, i, hrest => by
    have hlen : i < coins.length := by
      by_contra hc
      rw [List.drop_eq_nil_iff.mpr (by omega)] at hrest
      cases hrest
    have hdrop := List.drop_eq_getElem_cons hlen
    rw [hdrop] at hrest
    injection hrest with hc hrest'
    subst hc
    by_cases h1 : (i : Int) < a.MaxInputs
    · have h1n : i < a.MaxInputs.toNat := Int.lt_toNat.mpr h1
      have hstep : min coins.length a.MaxInputs.toNat - i =
          (min coins.length a.MaxInputs.toNat - (i + 1)) + 1 := by omega
      rw [hstep, List.range'_succ]
      unfold scanSel
      rw [if_pos h1, ← amtSumTake_succ coins i hlen]
      by_cases h2 : satisfiesTargetAmount t a.MinChangeAmount (amtSumTake coins (i + 1))
      · rw [if_pos h2,
          List.find?_cons_of_pos
            (p := fun k => satisfiesTargetAmount t a.MinChangeAmount (amtSumTake coins (k + 1)))
            _ (by simpa using h2)]
      · rw [if_neg h2,
          List.find?_cons_of_neg
            (p := fun k => satisfiesTargetAmount t a.MinChangeAmount (amtSumTake coins (k + 1)))
            _ (by simpa using h2)]
        exact scanSel_eq_find a t coins rest (i + 1) hrest'
    · have h1n : min coins.length a.MaxInputs.toNat - i = 0 := by
        have : a.MaxInputs.toNat ≤ i := by
          by_contra hc2
          exact h1 (Int.lt_toNat.mp (by omega))
        omega
      rw [h1n]
      unfold scanSel
      rw [if_neg h1]
      rfl

/-- C1 (amended): for every Args configuration with `max_inputs ≥ 0` —
for negative `max_inputs` the source panics in the
`make([]AmountCoin, 0, a.MaxInputs)` allocation instead of scanning, see
the counterexample — `SelectMinIndex` coincides with the description given
by the specification: it scans the collection left to right for at most
`min(collection length, max_inputs)` positions accumulating amounts and
returns `[0, ..., i]` for the smallest scanned position `i` whose
accumulated total satisfies the target predicate (`List.find?` over the
scan range picks the least such position), and returns the
`NoSelectionAvailable` error — and no index list — when no scanned
position satisfies it. -/
theorem selectMinIndex_eq_spec (a : Args) (target : Int) (coins : List VCoin)
    (hpos : 0 ≤ a.MaxInputs) :
    selectMinIndex a target coins = some (selectMinIndexSpec a target coins) := by
  have h2 := scanSel_eq_find a target coins coins 0 rfl
  unfold selectMinIndex selectMinIndexSpec
  rw [if_neg (by omega)]
  rw [show amtSumTake coins 0 = 0 from rfl] at h2
  rw [h2, Nat.sub_zero, ← List.range_eq_range']

/-- Witness for C1: the amended equality at `max_inputs = 3`, target 700
over the Scenario A amounts. -/
theorem selectMinIndex_eq_spec_witness :
    selectMinIndex ⟨3, 0⟩ 700 [⟨500, 0⟩, ⟨100, 0⟩, ⟨400, 0⟩] =
      some (selectMinIndexSpec ⟨3, 0⟩ 700 [⟨500, 0⟩, ⟨100, 0⟩, ⟨400, 0⟩]) :=
  selectMinIndex_eq_spec ⟨3, 0⟩ 700 [⟨500, 0⟩, ⟨100, 0⟩, ⟨400, 0⟩] (by decide)

/-- C1 counterexample: at `max_inputs = -1` — an Args configuration the
claim quantifies over — the source panics in the
`make([]AmountCoin, 0, a.MaxInputs)` allocation (modelled as `none`)
before any scan, instead of returning the `NoSelectionAvailable` error the
claim asserts when no scanned position satisfies the predicate. -/
theorem selectMinIndex_negative_budget_panics :
    selectMinIndex ⟨-1, 0⟩ 5 [⟨1, 0⟩] = none ∧
      (none : Option (Except CoinErr (List Nat))) ≠ some (.error .noSelectionAvailable) :=
  ⟨rfl, fun h => Option.noConfusion h⟩

/-- C10 counterexample: at `max_inputs = -1` with an empty collection —
inputs the claim asserts always yield `NoSelectionAvailable` — the source
panics at the `make([]AmountCoin, 0, a.MaxInputs)` allocation (modelled as
`none`) before the scan, and no error is returned. -/
theorem selectMinIndex_negative_budget_empty_collection :
    selectMinIndex ⟨-1, 0⟩ 0 [] = none ∧
      (none : Option (Except CoinErr (List Nat))) ≠ some (.error .noSelectionAvailable) :=
  ⟨rfl, fun h => Option.noConfusion h⟩

/-- C10 (amended): a successful `SelectMinIndex` never returns an empty
index list (the predicate is only consulted after a coin has been
accumulated); for `max_inputs ≥ 0`, an empty collection or
`max_inputs = 0` yields the `NoSelectionAvailable` error for every target
— including `target = 0`, `min_change_amount = 0`, which the empty subset
would satisfy — while for `max_inputs < 0` the allocation panics
(modelled as `none`) instead of returning the error. -/
theorem selectMinIndex_no_empty_selection (a : Args) (t : Int) (coins : List VCoin) :
    (∀ idxs, selectMinIndex a t coins = some (.ok idxs) → idxs ≠ []) ∧
    (0 ≤ a.MaxInputs → coins = [] ∨ a.MaxInputs = 0 →
      selectMinIndex a t coins = some (.error .noSelectionAvailable)) ∧
    (a.MaxInputs < 0 → selectMinIndex a t coins = none) := by
  refine ⟨?_, ?_, ?_⟩
  · intro idxs h
    unfold selectMinIndex at h
    by_cases hm : a.MaxInputs < 0
    · rw [if_pos hm] at h
      cases h
    · rw [if_neg hm] at h
      simp only [Option.some.injEq] at h
      obtain ⟨k, _, rfl, _⟩ := scanSel_ok a t coins 0 0 idxs h
      have hlen : (List.range (k + 1)).length = k + 1 := List.length_range _
      intro hnil
      rw [hnil] at hlen
      cases hlen
  · intro hm hc
    unfold selectMinIndex
    rw [if_neg (by omega)]
    rcases hc with rfl | hzero
    · rfl
    · cases coins with
      | nil => rfl
      | cons c rest =>
        unfold scanSel
        rw [if_neg (by push_cast; omega)]
  · intro hm
    unfold selectMinIndex
    rw [if_pos hm]

/-- Witness for C10: a successful run returning the nonempty list `[0]`,
the error at `max_inputs = 0`, and the panic at `max_inputs = -1`. -/
theorem selectMinIndex_no_empty_selection_witness :
    ([0] : List Nat) ≠ [] ∧
    selectMinIndex ⟨0, 0⟩ 0 [⟨1, 0⟩] = some (.error .noSelectionAvailable) ∧
    selectMinIndex ⟨-1, 0⟩ 0 [⟨1, 0⟩] = none :=
  ⟨(selectMinIndex_no_empty_selection ⟨1, 0⟩ 0 [⟨1, 0⟩]).1 [0] rfl,
    (selectMinIndex_no_empty_selection ⟨0, 0⟩ 0 [⟨1, 0⟩]).2.1 (by decide) (Or.inr rfl),
    (selectMinIndex_no_empty_selection ⟨-1, 0⟩ 0 [⟨1, 0⟩]).2.2 (by decide)⟩

/-! Length bounds for the spec-modelled minimum-average-priority
selection. -/

theorem extendLow_length {maxInputs minAvg : Int} :
    ∀ (low acc : List VCoin), (acc.length : Int) ≤ maxInputs →
      ((extendLow maxInputs minAvg low acc).length : Int) ≤ maxInputs
  | [], acc, h => h
  | c :: rest, acc, h => by
    unfold extendLow
    by_cases h1 : (acc.length : Int) < maxInputs
    · rw [if_pos h1]
      by_cases h2 : Int.tdiv (ageSum (acc ++ [c])) ((acc ++ [c]).length : Int) < minAvg
      · rw [if_pos h2]
        exact h
      · rw [if_neg h2]
        refine extendLow_length rest (acc ++ [c]) ?_
        rw [List.length_append]
        push_cast
        simpa using h1
    · rw [if_neg h1]
      exact h

theorem mem_numLowCandidates {cutoff : Nat} {maxInputs : Int} {windowLen : Nat} {n : Nat}
    (h : n ∈ numLowCandidates cutoff maxInputs windowLen) :
    (windowLen : Int) + (n : Int) ≤ maxInputs := by
  unfold numLowCandidates at h
  have := (List.mem_filter.mp h).2
  simpa using this

theorem tryNumLowList_length
    {recur : Args → Int → Int → List VCoin → Except CoinErr (List VCoin)}
    (hrec : ∀ a m t l s, recur a m t l = .ok s → (s.length : Int) ≤ a.MaxInputs)
    (a : Args) (minAvg target : Int) (low window : List VCoin) :
    ∀ (cands : List Nat) (r : List VCoin),
      (∀ n ∈ cands, (window.length : Int) + (n : Int) ≤ a.MaxInputs) →
      tryNumLowList recur a minAvg target low window cands = some r →
      (r.length : Int) ≤ a.MaxInputs := by
  intro cands
  induction cands with
  | nil =>
    intro r _ h
    cases h
  | cons numLow rest ih =>
    intro r hcand h
    simp only [tryNumLowList] at h
    cases hr : recur { MaxInputs := (numLow : Int), MinChangeAmount := a.MinChangeAmount }
        (Int.tdiv (minAvg * ((window.length : Int) + (numLow : Int)) - ageSum window)
          (numLow : Int))
        (target - amtSum window) low with
    | ok lowSel =>
      rw [hr] at h
      simp only [Option.some.injEq] at h
      subst h
      have hlow := hrec _ _ _ _ _ hr
      have hbound := hcand numLow (List.mem_cons_self _ _)
      rw [List.length_append]
      push_cast
      push_cast at hlow
      omega
    | error e =>
      rw [hr] at h
      exact ih r (fun n hn => hcand n (List.mem_cons_of_mem _ hn)) h

theorem tryWindowsList_length
    {recur : Args → Int → Int → List VCoin → Except CoinErr (List VCoin)}
    (hrec : ∀ a m t l s, recur a m t l = .ok s → (s.length : Int) ≤ a.MaxInputs)
    (a : Args) (minAvg target : Int) (sortedCoins : List VCoin) (cutoff : Nat)
    (low : List VCoin) :
    ∀ (ws : List Nat) (sel : List VCoin),
      tryWindowsList recur a minAvg target sortedCoins cutoff low ws = .ok sel →
      (sel.length : Int) ≤ a.MaxInputs := by
  intro ws
  induction ws with
  | nil =>
    intro sel h
    cases h
  | cons i rest ih =>
    intro sel h
    simp only [tryWindowsList] at h
    cases hmn : minNumberSelectCore a target ((sortedCoins.take (i + 1)).drop cutoff) with
    | ok selIdx =>
      rw [hmn] at h
      simp only [Except.ok.injEq] at h
      subst h
      have hidx : (selIdx.length : Int) ≤ a.MaxInputs := minNumberSelectCore_ok_length hmn
      refine extendLow_length _ _ ?_
      have htake : ((sortByLe byAmountDesc ((sortedCoins.take (i + 1)).drop cutoff)).take
          selIdx.length).length ≤ selIdx.length := by
        rw [List.length_take]
        omega
      push_cast at hidx ⊢
      omega
    | error e =>
      rw [hmn] at h
      cases hsup : tryNumLowList recur a minAvg target low
          ((sortedCoins.take (i + 1)).drop cutoff)
          (numLowCandidates cutoff a.MaxInputs ((sortedCoins.take (i + 1)).drop cutoff).length) with
      | none =>
        rw [hsup] at h
        exact ih sel h
      | some r =>
        rw [hsup] at h
        simp only [Except.ok.injEq] at h
        subst h
        exact tryNumLowList_length hrec a minAvg target low _ _ r
          (fun n hn => mem_numLowCandidates hn) hsup

theorem minPrioFuel_length :
    ∀ (fuel : Nat) (a : Args) (minAvg target : Int) (coins sel : List VCoin),
      minPrioFuel fuel a minAvg target coins = .ok sel → (sel.length : Int) ≤ a.MaxInputs
  | 0, a, m, t, coins, sel => by
    intro h
    cases h
  | fuel + 1, a, m, t, coins, sel => by
    intro h
    simp only [minPrioFuel, minPrioStep] at h
    cases hcut : (sortByLe byValueAgeAsc coins).findIdx? (fun c => decide (m ≤ c.valueAge)) with
    | none =>
      rw [hcut] at h
      cases h
    | some cutoff =>
      rw [hcut] at h
      exact tryWindowsList_length
        (fun a' m' t' l' s' hh => minPrioFuel_length fuel a' m' t' l' s' hh)
        a m t _ cutoff _ _ sel h

/-- C7: every index list returned by a non-error call to `SelectMinIndex`,
`MinNumberSelect` or `MaxValueAgeSelect`, and every coin selection returned
by a non-error call to the spec-modelled `MinPrioritySelect`, has length at
most `max_inputs`. -/
theorem budget_respected :
    (∀ (a : Args) (t : Int) (coins : List VCoin) (idxs : List Nat),
        selectMinIndex a t coins = some (.ok idxs) → (idxs.length : Int) ≤ a.MaxInputs) ∧
    (∀ (a : Args) (t : Int) (coins : List VCoin) (idxs : List Nat),
        minNumberSelect a t coins = some (.ok idxs) → (idxs.length : Int) ≤ a.MaxInputs) ∧
    (∀ (a : Args) (t : Int) (coins : List VCoin) (idxs : List Nat),
        maxValueAgeSelect a t coins = some (.ok idxs) → (idxs.length : Int) ≤ a.MaxInputs) ∧
    (∀ (a : Args) (m t : Int) (coins sel : List VCoin),
        minPrioritySelect a m t coins = some (.ok sel) → (sel.length : Int) ≤ a.MaxInputs) := by
  refine ⟨fun _ _ _ _ h => selectMinIndex_ok_length h,
    fun _ _ _ _ h => selectMinIndex_ok_length h,
    fun _ _ _ _ h => selectMinIndex_ok_length h,
    fun a m t coins sel h => ?_⟩
  unfold minPrioritySelect at h
  by_cases hm : a.MaxInputs < 0
  · rw [if_pos hm] at h
    cases hcut : (sortByLe byValueAgeAsc coins).findIdx? (fun c => decide (m ≤ c.valueAge)) with
    | none =>
      rw [hcut] at h
      simp at h
    | some cutoff =>
      rw [hcut] at h
      simp at h
  · rw [if_neg hm] at h
    simp only [Option.some.injEq] at h
    exact minPrioFuel_length (coins.length + 1) a m t coins sel h

/-- Witness for C7: concrete successful runs of each of the four
algorithms, each within its input budget. -/
theorem budget_respected_witness :
    (([0] : List Nat).length : Int) ≤ 1 ∧ (([0] : List Nat).length : Int) ≤ 2 ∧
    (([0] : List Nat).length : Int) ≤ 2 ∧
    (([⟨100, 5⟩, ⟨100, 1⟩] : List VCoin).length : Int) ≤ 2 :=
  ⟨budget_respected.1 ⟨1, 0⟩ 100 [⟨100, 5⟩] [0] rfl,
    budget_respected.2.1 ⟨2, 0⟩ 100 [⟨100, 5⟩] [0] rfl,
    budget_respected.2.2.1 ⟨2, 0⟩ 100 [⟨100, 5⟩] [0] rfl,
    budget_respected.2.2.2 ⟨2, 0⟩ 3 150 [⟨100, 1⟩, ⟨100, 5⟩] [⟨100, 5⟩, ⟨100, 1⟩] rfl⟩

theorem minPrioFuel_error_of_no_cutoff {m : Int} {coins : List VCoin} {fuel : Nat}
    (a : Args) (t : Int)
    (hnone : (sortByLe byValueAgeAsc coins).findIdx?
      (fun c => decide (m ≤ c.valueAge)) = none) :
    minPrioFuel (fuel + 1) a m t coins = .error .noSelectionAvailable := by
  simp only [minPrioFuel, minPrioStep, hnone]

/-- C8: when no coin of the collection — equivalently, of its ascending
value-age reordering — has value-age at least the threshold
`minAvgValueAgePerInput`, the cutoff scan finds no index and
`MinPrioritySelect` fails with `NoSelectionAvailable`. -/
theorem minPrioritySelect_no_high_coin (a : Args) (minAvg target : Int) (coins : List VCoin)
    (h : ∀ c ∈ coins, c.valueAge < minAvg) :
    minPrioritySelect a minAvg target coins = some (.error .noSelectionAvailable) := by
  have hnone : (sortByLe byValueAgeAsc coins).findIdx?
      (fun c => decide (minAvg ≤ c.valueAge)) = none := by
    rw [List.findIdx?_eq_none_iff]
    intro c hc
    have hmem : c ∈ coins := (sortByLe_perm byValueAgeAsc coins).mem_iff.mp hc
    simp only [decide_eq_false_iff_not, not_le]
    exact h c hmem
  unfold minPrioritySelect
  by_cases hm : a.MaxInputs < 0
  · rw [if_pos hm, hnone]
  · rw [if_neg hm, minPrioFuel_error_of_no_cutoff a target hnone]

/-- Witness for C8: a single coin of value-age 1 against threshold 10. -/
theorem minPrioritySelect_no_high_coin_witness :
    minPrioritySelect ⟨1, 0⟩ 10 100 [⟨5, 1⟩] = some (.error .noSelectionAvailable) :=
  minPrioritySelect_no_high_coin ⟨1, 0⟩ 10 100 [⟨5, 1⟩] (by decide)
